import Mathlib

/-!
# Verification of the dorado duplex read-pipeline core

Shallow embedding of the two stateful pipeline nodes of the `Shians/dorado`
repository that the specification's claims are about:

* `SubreadTaggerNode` (src/dorado/read_pipeline/SubreadTaggerNode.cpp):
  a barrier/join that buffers simplex subread fragments and duplex-derived
  reads keyed by a shared `read_tag` until a family is complete, then emits
  the family with corrected `split_count` / `subread_id` fields.

* `StereoDuplexEncoderNode` (src/dorado/read_pipeline/StereoDuplexEncoderNode.cpp):
  pairs a template read with its complement via static id maps and a pending
  read cache, and encodes an accepted pair into a merged stereo record.

C++ `std::map` / ordered `std::set` state is embedded as association lists
with explicit lookup/insert/erase operations (a `std::map` never holds two
entries with one key, so theorems that need it take a no-duplicate-keys
hypothesis).  Each critical section of the C++ code becomes one atomic step
of the model.  Floating-point raw-signal contents are outside the model: the
tensors produced by the encoder are represented by their torch shape vector,
which is all the emission gate (`ndimension() == 2`) inspects, and the
length-ratio test, computed by the C++ in `float`, is embedded as the exact
comparison on rationals it implements.
-/

namespace Dorado

/-! ## Association-list maps (embedding of `std::map`) -/

/-- Lookup in an association-list map: the value of the first entry with the
given key, as `std::map::find`. -/
def mapLookup {κ α : Type} [DecidableEq κ] (k : κ) : List (κ × α) → Option α
  | [] => none
  | (k', v') :: rest => if k' = k then some v' else mapLookup k rest

/-- Insert/overwrite in an association-list map, as `std::map::operator[]=`:
replaces the first entry with the given key, or appends if absent. -/
def mapInsert {κ α : Type} [DecidableEq κ] (k : κ) (v : α) : List (κ × α) → List (κ × α)
  | [] => [(k, v)]
  | (k', v') :: rest => if k' = k then (k, v) :: rest else (k', v') :: mapInsert k v rest

/-- Erase from an association-list map, as `std::map::erase`: removes the
first entry with the given key. -/
def mapErase {κ α : Type} [DecidableEq κ] (k : κ) : List (κ × α) → List (κ × α)
  | [] => []
  | (k', v') :: rest => if k' = k then rest else (k', v') :: mapErase k rest

/-- The keys of an association-list map are pairwise distinct (always true of
a real `std::map`). -/
def keysND {κ α : Type} (l : List (κ × α)) : Prop := (l.map Prod.fst).Nodup

instance {κ α : Type} [DecidableEq κ] (l : List (κ × α)) : Decidable (keysND l) := by
  unfold keysND; infer_instance

/-- Every element stored under a ledger key satisfies the key-derived
predicate: the reads of each entry's payload (extracted by `elems`) carry
the entry's own key as their tag. -/
def ledgerTagged {α γ : Type} (elems : α → List γ) (tagOf : γ → Nat)
    (l : List (Nat × α)) : Prop :=
  ∀ p ∈ l, ∀ r ∈ elems p.2, tagOf r = p.1

instance {α γ : Type} [DecidableEq γ] (elems : α → List γ) (tagOf : γ → Nat)
    (l : List (Nat × α)) : Decidable (ledgerTagged elems tagOf l) := by
  unfold ledgerTagged; infer_instance

/-! ## SubreadTaggerNode (src/dorado/read_pipeline/SubreadTaggerNode.cpp)

The node's `read_tag` key (an integer id shared by all fragments of one
physical read) is embedded as `Nat`.  `m_updated_read_tags` is a
`std::set<read_tag>`: an ordered set whose `begin()` is its minimum element,
embedded as a sorted duplicate-free list with ordered insertion. -/

/-- The fields of `ReadCommon` that `SubreadTaggerNode` reads or writes. -/
structure ReadCommon where
  read_tag : Nat
  split_count : Nat
  subread_id : Nat
  deriving DecidableEq, Repr

/-- A simplex read: `ReadCommon` data plus the `SimplexRead`-specific
`num_duplex_candidate_pairs` counter. -/
structure SimplexRead where
  read_common : ReadCommon
  num_duplex_candidate_pairs : Nat
  deriving DecidableEq, Repr

/-- A duplex read (only its `ReadCommon` data matters to the tagger). -/
structure DuplexRead where
  read_common : ReadCommon
  deriving DecidableEq, Repr

/-- The `Message` variant as the tagger sees it: a simplex read pointer, a
duplex read pointer, or some other alternative of the variant. -/
inductive Message where
  | simplex (r : SimplexRead)
  | duplex (r : DuplexRead)
  | other
  deriving DecidableEq, Repr

/-- `is_read_message`: the message is one of the read alternatives. -/
def is_read_message : Message → Bool
  | .simplex _ => true
  | .duplex _ => true
  | .other => false

/-- The `read_tag` carried by a message, when it is a read. -/
def msgTag : Message → Option Nat
  | .simplex r => some r.read_common.read_tag
  | .duplex r => some r.read_common.read_tag
  | .other => none

/-- Ordered insertion into a sorted duplicate-free list
(`std::set::insert`). -/
def osetInsert (x : Nat) : List Nat → List Nat
  | [] => [x]
  | y :: rest =>
    if x < y then x :: y :: rest
    else if x = y then y :: rest
    else y :: osetInsert x rest

/-- The mutable state of a `SubreadTaggerNode`: `m_subread_groups`,
`m_full_subread_groups` (a completed simplex group paired with its expected
duplex count), `m_duplex_reads`, and the dirty-tag set
`m_updated_read_tags`. -/
structure TaggerState where
  subread_groups : List (Nat × List SimplexRead)
  full_subread_groups : List (Nat × (List SimplexRead × Nat))
  duplex_reads : List (Nat × List DuplexRead)
  updated_read_tags : List Nat
  deriving DecidableEq, Repr

/-- The empty ledger (a freshly constructed node). -/
def TaggerState.init : TaggerState := ⟨[], [], [], []⟩

/-- One iteration of `SubreadTaggerNode::worker_thread` on one popped
message, returning the new state and the messages pushed to the sink.
A non-read message is logged as a warning and skipped (the loop continues);
a duplex read is appended to `m_duplex_reads[tag]` and the tag marked dirty;
a simplex read is appended to `m_subread_groups[tag]`, and when the group
size reaches the read's `split_count` the group is extracted: if its summed
`num_duplex_candidate_pairs` is zero it is emitted immediately, otherwise it
moves to `m_full_subread_groups` with that sum and the tag is marked
dirty. -/
def worker_process (msg : Message) (s : TaggerState) : TaggerState × List Message :=
  match msg with
  | .other => (s, [])
  | .duplex d =>
    let tag := d.read_common.read_tag
    let cur := (mapLookup tag s.duplex_reads).getD []
    ({ s with
        duplex_reads := mapInsert tag (cur ++ [d]) s.duplex_reads
        updated_read_tags := osetInsert tag s.updated_read_tags }, [])
  | .simplex r =>
    let tag := r.read_common.read_tag
    let split_count := r.read_common.split_count
    let subreads := (mapLookup tag s.subread_groups).getD [] ++ [r]
    if subreads.length ≠ split_count then
      ({ s with subread_groups := mapInsert tag subreads s.subread_groups }, [])
    else
      let s1 := { s with subread_groups := mapErase tag s.subread_groups }
      let num_expected_duplex := (subreads.map (·.num_duplex_candidate_pairs)).sum
      if num_expected_duplex = 0 then
        (s1, subreads.map Message.simplex)
      else
        ({ s1 with
            full_subread_groups :=
              mapInsert tag (subreads, num_expected_duplex) s1.full_subread_groups
            updated_read_tags := osetInsert tag s1.updated_read_tags }, [])

/-- One iteration of `SubreadTaggerNode::check_duplex_thread` after waking
with a non-empty dirty set: pop the first (minimum) dirty tag; if it has no
full subread group, do nothing more; otherwise compare
`m_duplex_reads[read_tag].size()` (the `operator[]` default-constructs a
missing entry) with the expected count — on mismatch leave both entries in
place, on match erase the tag from both maps and emit every subread with
`split_count` rewritten to the family total, then every duplex read with the
same total and `subread_id = base + index`. -/
def check_duplex_step (s : TaggerState) : TaggerState × List Message :=
  match s.updated_read_tags with
  | [] => (s, [])
  | tag :: rest =>
    let s0 := { s with updated_read_tags := rest }
    match mapLookup tag s0.full_subread_groups with
    | none => (s0, [])
    | some (subreads, num_expected_duplex) =>
      let dupes := (mapLookup tag s0.duplex_reads).getD []
      let s1 := { s0 with duplex_reads := mapInsert tag dupes s0.duplex_reads }
      if dupes.length ≠ num_expected_duplex then
        (s1, [])
      else
        let s2 := { s1 with
          full_subread_groups := mapErase tag s1.full_subread_groups
          duplex_reads := mapErase tag s1.duplex_reads }
        let base := subreads.length
        let subread_count := base + dupes.length
        let out_subreads := subreads.map fun r =>
          Message.simplex { r with read_common := { r.read_common with split_count := subread_count } }
        let out_duplex := dupes.enum.map fun p =>
          Message.duplex { p.2 with read_common :=
            { p.2.read_common with split_count := subread_count, subread_id := base + p.1 } }
        (s2, out_subreads ++ out_duplex)

/-- An atomic step of the node: either a worker consumes one input message,
or the reconciliation thread runs one pass over the first dirty tag. -/
inductive TaggerEvent where
  | msg (m : Message)
  | check
  deriving DecidableEq, Repr

/-- Dispatch one event. -/
def taggerStep (s : TaggerState) : TaggerEvent → TaggerState × List Message
  | .msg m => worker_process m s
  | .check => check_duplex_step s

/-- Run a sequence of events, accumulating every message sent to the sink in
order. -/
def taggerRun (s : TaggerState) : List TaggerEvent → TaggerState × List Message
  | [] => (s, [])
  | e :: es =>
    let (s', out) := taggerStep s e
    let (s'', outs) := taggerRun s' es
    (s'', out ++ outs)

/-- Ledger well-formedness: every read buffered in any of the three maps is
stored under its own `read_tag` — true of every state the worker can reach,
since each insertion keys a read by its own tag. -/
def tagsConsistent (s : TaggerState) : Prop :=
  ledgerTagged id (fun r : SimplexRead => r.read_common.read_tag) s.subread_groups
  ∧ ledgerTagged Prod.fst (fun r : SimplexRead => r.read_common.read_tag) s.full_subread_groups
  ∧ ledgerTagged id (fun r : DuplexRead => r.read_common.read_tag) s.duplex_reads

instance (s : TaggerState) : Decidable (tagsConsistent s) := by
  unfold tagsConsistent; infer_instance

/-! ## StereoDuplexEncoderNode (src/dorado/read_pipeline/StereoDuplexEncoderNode.cpp)

The encoder's `dorado::Read` is embedded with the fields its control flow
inspects: `read_id`, `seq`, and `raw_data`, the latter abstracted to the
torch shape vector — the node's emission gate reads only
`raw_data.ndimension()`, and the float16 sample values the encoding loop
writes are outside the model. -/

/-- A torch tensor abstracted to its shape vector; a default-constructed
(undefined) tensor has an empty shape. -/
structure Tensor where
  sizes : List Nat
  deriving DecidableEq, Repr

/-- `torch::Tensor::ndimension()`. -/
def Tensor.ndimension (t : Tensor) : Nat := t.sizes.length

/-- The fields of the encoder's `dorado::Read` that its control flow
inspects. -/
structure StereoRead where
  read_id : String
  seq : String
  raw_data : Tensor
  deriving DecidableEq, Repr

/-- `std::make_shared<dorado::Read>()`: all fields default-constructed. -/
def emptyRead : StereoRead := ⟨"", "", ⟨[]⟩⟩

/-- Modelled from the spec: the outcome of the external alignment
(`edlibAlign`, third-party) and of `utils::get_trimmed_alignment` (not under
src/) — "compute an edit-distance alignment (global path ...)" then "Trim
the alignment to its highest-confidence contiguous span".  Only the trimmed
span's start and end alignment positions survive into the model, which is
all the `consensus_possible` decision inspects. -/
structure AlignTrim where
  start_alignment_position : Int
  end_alignment_position : Int
  deriving DecidableEq, Repr

/-- `kMinTrimmedAlignmentLength` in `stereo_encode`. -/
def kMinTrimmedAlignmentLength : Int := 200

/-- `kNumFeatures`: the first dimension of the encoded output tensor. -/
def kNumFeatures : Nat := 13

/-- The length-ratio rejection test of `stereo_encode` (lines 28-34):
`delta / max(len_t, len_c) > 0.05` with `delta = max - min`.  The C++
computes this in `float`; the model uses the exact comparison it implements,
cross-multiplied over naturals: for `max > 0` the tests agree, and for two
empty sequences the C++ `0.0/0.0` is NaN, whose comparison is false, as is
`0 > 0` here. -/
def length_ratio_exceeded (t c : StereoRead) : Bool :=
  let template_len := t.seq.length
  let complement_len := c.seq.length
  let delta := max template_len complement_len - min template_len complement_len
  20 * delta > max template_len complement_len

/-- `consensus_possible` (lines 70-73): the trimmed span is non-inverted and
strictly longer than `kMinTrimmedAlignmentLength` alignment columns. -/
def consensus_possible (a : AlignTrim) : Bool :=
  (a.start_alignment_position < a.end_alignment_position) &&
  (a.end_alignment_position - a.start_alignment_position > kMinTrimmedAlignmentLength)

/-- `stereo_internal::stereo_encode`.  `a` stands for the external
alignment/trim computation and `encoded_width` for `stereo_global_cursor`,
the number of samples written by the column-walking signal-merge loop (its
float16 contents are outside the model).  A ratio or consensus rejection
returns the default-constructed read; success returns a read whose id is
`template.read_id + ";" + complement.read_id` and whose tensor has shape
`[kNumFeatures, encoded_width]` (the `[13, max_size]` buffer sliced to the
written width — two-dimensional in every case). -/
def stereo_encode (t c : StereoRead) (a : AlignTrim) (encoded_width : Nat) : StereoRead :=
  if length_ratio_exceeded t c then emptyRead
  else if !consensus_possible a then emptyRead
  else
    { read_id := t.read_id ++ ";" ++ c.read_id
      seq := ""
      raw_data := ⟨[kNumFeatures, encoded_width]⟩ }

/-- The emission gate of the worker (lines 353-360): push the encoded read
to the sink iff its tensor is 2-dimensional ("2 dims for stereo encoding,
1 for simplex"). -/
def encode_and_gate (t c : StereoRead) (a : AlignTrim) (encoded_width : Nat) : List StereoRead :=
  let enc := stereo_encode t c a encoded_width
  if enc.raw_data.ndimension = 2 then [enc] else []

/-- The encoder node's mutable state: the pending-partner `read_cache`. -/
structure EncoderState where
  read_cache : List (String × StereoRead)
  deriving DecidableEq, Repr

/-- A message as the encoder's worker sees it: a `Read`, or some other
alternative of the `Message` variant. -/
inductive EncMessage where
  | read (r : StereoRead)
  | other
  deriving DecidableEq, Repr

/-- The worker's partner lookup (lines 312-328): the read's id is looked up
in `m_template_complement_map`, then in `m_complement_template_map`; the
result is `(partner_found, read_is_template, partner_id)`. -/
def partner_search (tc ct : List (String × String)) (id : String) : Bool × Bool × String :=
  match mapLookup id tc with
  | some pid => (true, true, pid)
  | none =>
    match mapLookup id ct with
    | some pid => (true, false, pid)
    | none => (false, false, "")

/-- One iteration of `StereoDuplexEncoderNode::worker_thread` on one popped
message.  A non-Read message makes `std::get<std::shared_ptr<Read>>` throw
`bad_variant_access`, modelled as `Except.error`.  For a read: run
`partner_search`; with no partner the read is dropped; with the partner
absent from the cache the read is inserted keyed by its own id; with the
partner cached the partner entry is erased in the same critical section
(lines 330-361), the pair is ordered into (template, complement), encoded,
and emitted through the gate.  `ao`/`wo` supply the externally computed
alignment/trim data and merged width per pair. -/
def encoder_worker_step (tc ct : List (String × String))
    (ao : StereoRead → StereoRead → AlignTrim) (wo : StereoRead → StereoRead → Nat)
    (msg : EncMessage) (s : EncoderState) : Except String (EncoderState × List StereoRead) :=
  match msg with
  | .other => .error "bad_variant_access"
  | .read r =>
    let (partner_found, read_is_template, partner_id) := partner_search tc ct r.read_id
    if partner_found then
      match mapLookup partner_id s.read_cache with
      | none => .ok ({ read_cache := mapInsert r.read_id r s.read_cache }, [])
      | some partner =>
        let s' : EncoderState := { read_cache := mapErase partner_id s.read_cache }
        let template_read := if read_is_template then r else partner
        let complement_read := if read_is_template then partner else r
        .ok (s', encode_and_gate template_read complement_read
          (ao template_read complement_read) (wo template_read complement_read))
    else
      .ok (s, [])

/-- Run the worker over a message sequence; the first exception kills the
thread (no recovery). -/
def encoder_run (tc ct : List (String × String))
    (ao : StereoRead → StereoRead → AlignTrim) (wo : StereoRead → StereoRead → Nat)
    (s : EncoderState) : List EncMessage → Except String (EncoderState × List StereoRead)
  | [] => .ok (s, [])
  | m :: ms =>
    match encoder_worker_step tc ct ao wo m s with
    | .error e => .error e
    | .ok (s', out) =>
      match encoder_run tc ct ao wo s' ms with
      | .error e => .error e
      | .ok (s'', outs) => .ok (s'', out ++ outs)

/-! ### Shutdown/termination trace of the encoder node

`worker_thread` (lines 363-369): each worker, after its input is exhausted,
decrements `m_num_worker_threads`; the worker that observes zero calls
`m_sink.terminate()`.  `~StereoDuplexEncoderNode` (lines 390-397) terminates
the node's own input queue, joins every worker, then calls
`m_sink.terminate()` once more.  The decrement is the only synchronisation
point, so the exits are serialised into a trace. -/

/-- Observable termination actions of the node. -/
inductive ShutdownAction where
  | worker_exit (remaining : Nat)
  | sink_terminate
  | self_queue_terminate
  deriving DecidableEq, Repr

/-- The exit of `n` workers in sequence: each decrement yields the remaining
count, and the worker that reaches zero calls `m_sink.terminate()`. -/
def worker_exit_actions : Nat → List ShutdownAction
  | 0 => []
  | n + 1 =>
    (ShutdownAction.worker_exit n :: if n = 0 then [ShutdownAction.sink_terminate] else [])
      ++ worker_exit_actions n

/-- A complete run of the node through destruction: the destructor closes
the node's own input queue, every worker drains and exits (the last one
closing the sink), the destructor joins them and then closes the sink
again. -/
def node_complete_run (num_workers : Nat) : List ShutdownAction :=
  ShutdownAction.self_queue_terminate :: worker_exit_actions num_workers
    ++ [ShutdownAction.sink_terminate]

/-- How many times the sink's input queue is closed in a trace. -/
def sink_terminate_count (l : List ShutdownAction) : Nat :=
  l.count ShutdownAction.sink_terminate

/-! ### Concrete inputs used by the claim witnesses and counterexamples -/

/-- Concrete node state for the C4 witness: two buffered fragments of a
`split_count = 3` family under tag 7. -/
def c4State : TaggerState := ⟨[(7, [⟨⟨7, 3, 0⟩, 0⟩, ⟨⟨7, 3, 1⟩, 0⟩])], [], [], []⟩

/-- The third fragment of the C4 witness family. -/
def c4Read : SimplexRead := ⟨⟨7, 3, 2⟩, 0⟩

/-- Concrete node state for the C1 witness, the spec's duplex-augmented test
vector: tag 7 waits with a completed group of two fragments (fragment A with
one duplex candidate, fragment B with none) and one collected duplex read;
tag 7 is dirty. -/
def c1State : TaggerState :=
  ⟨[], [(7, ([⟨⟨7, 2, 0⟩, 1⟩, ⟨⟨7, 2, 1⟩, 0⟩], 1))], [(7, [⟨⟨7, 1, 0⟩⟩])], [7]⟩

/-- Concrete node state for the C9 witness: tag 3 is dirty, waits with a
one-fragment group expecting one duplex read, and that duplex read has been
collected. -/
def c9State : TaggerState :=
  ⟨[], [(3, ([⟨⟨3, 1, 0⟩, 1⟩], 1))], [(3, [⟨⟨3, 1, 0⟩⟩])], [3]⟩

/-- A 300-base template read used to exercise claim C2 at the minimum-span
boundary. -/
def c2Template : StereoRead := ⟨"A", String.mk (List.replicate 300 'A'), ⟨[1500]⟩⟩

/-- Its complement, with an identical sequence (length-difference ratio 0). -/
def c2Complement : StereoRead := ⟨"B", String.mk (List.replicate 300 'A'), ⟨[1500]⟩⟩

/-- The sequence shared by the C5 pair (identical, so the ratio test
passes). -/
def c5Seq : String := String.mk (List.replicate 250 'A')

/-- The template read of the C5 pair. -/
def c5Template : StereoRead := ⟨"T", c5Seq, ⟨[1250]⟩⟩

/-- The complement read of the C5 pair. -/
def c5Complement : StereoRead := ⟨"C", c5Seq, ⟨[1250]⟩⟩

/-- The merged record the encoder produces for the C5 pair. -/
def c5Merged : StereoRead := ⟨"T;C", "", ⟨[kNumFeatures, 1000]⟩⟩

/-- The alignment oracle for the C5 pair: a full-length 250-column trimmed
span, as the external aligner would report for identical sequences. -/
def c5ao : StereoRead → StereoRead → AlignTrim := fun _ _ => ⟨0, 250⟩

/-- The width oracle for the C5 pair (the merged signal width). -/
def c5wo : StereoRead → StereoRead → Nat := fun _ _ => 1000

/-- Concrete state for the C10 witness: tag 7 waits with a one-fragment
group expecting one duplex read, but two duplex reads were collected. -/
def c10State : TaggerState :=
  ⟨[], [(7, ([⟨⟨7, 2, 0⟩, 1⟩], 1))], [(7, [⟨⟨7, 1, 0⟩⟩, ⟨⟨7, 1, 0⟩⟩])], [7]⟩

/-- Events for the C10 witness: a reconciliation pass over the over-full
tag, then an unrelated single-fragment family on tag 8. -/
def c10Events : List TaggerEvent := [.check, .msg (.simplex ⟨⟨8, 1, 0⟩, 0⟩)]

/-! ## Supporting lemmas -/

theorem mapLookup_insert_self {κ α : Type} [DecidableEq κ] (k : κ) (v : α) (l : List (κ × α)) :
    mapLookup k (mapInsert k v l) = some v := by
  induction l with
  | nil => simp [mapInsert, mapLookup]
  | cons p rest ih =>
    obtain ⟨a, b⟩ := p
    by_cases h : a = k <;> simp [mapInsert, mapLookup, h, ih]

theorem mapLookup_insert_ne {κ α : Type} [DecidableEq κ] {k k' : κ} (v : α) (l : List (κ × α))
    (h : k' ≠ k) : mapLookup k' (mapInsert k v l) = mapLookup k' l := by
  induction l with
  | nil => simp [mapInsert, mapLookup, Ne.symm h]
  | cons p rest ih =>
    obtain ⟨a, b⟩ := p
    by_cases hk : a = k
    · subst hk
      simp [mapInsert, mapLookup, Ne.symm h]
    · by_cases hk' : a = k' <;> simp [mapInsert, mapLookup, hk, hk', h, ih]

theorem mapLookup_erase_ne {κ α : Type} [DecidableEq κ] {k k' : κ} (l : List (κ × α))
    (h : k' ≠ k) : mapLookup k' (mapErase k l) = mapLookup k' l := by
  induction l with
  | nil => simp [mapErase]
  | cons p rest ih =>
    obtain ⟨a, b⟩ := p
    by_cases hk : a = k
    · subst hk
      simp [mapErase, mapLookup, Ne.symm h]
    · by_cases hk' : a = k' <;> simp [mapErase, mapLookup, hk, hk', h, ih]

theorem mapLookup_eq_none_of_not_mem_keys {κ α : Type} [DecidableEq κ] {k : κ}
    {l : List (κ × α)} (h : k ∉ l.map Prod.fst) : mapLookup k l = none := by
  induction l with
  | nil => simp [mapLookup]
  | cons p rest ih =>
    obtain ⟨a, b⟩ := p
    simp only [List.map_cons, List.mem_cons, not_or] at h
    simp [mapLookup, Ne.symm h.1, ih h.2]

theorem mapLookup_erase_self {κ α : Type} [DecidableEq κ] (k : κ) (l : List (κ × α))
    (hnd : keysND l) : mapLookup k (mapErase k l) = none := by
  induction l with
  | nil => simp [mapErase, mapLookup]
  | cons p rest ih =>
    obtain ⟨a, b⟩ := p
    rw [keysND, List.map_cons, List.nodup_cons] at hnd
    by_cases hk : a = k
    · subst hk
      simp only [mapErase, if_pos rfl]
      exact mapLookup_eq_none_of_not_mem_keys hnd.1
    · simp only [mapErase, if_neg hk, mapLookup, if_neg hk]
      exact ih hnd.2

theorem mapInsert_keys {κ α : Type} [DecidableEq κ] (k : κ) (v : α) (l : List (κ × α)) :
    (mapInsert k v l).map Prod.fst =
      if k ∈ l.map Prod.fst then l.map Prod.fst else l.map Prod.fst ++ [k] := by
  induction l with
  | nil => simp [mapInsert]
  | cons p rest ih =>
    obtain ⟨a, b⟩ := p
    by_cases hk : a = k
    · subst hk
      simp [mapInsert]
    · by_cases hmem : k ∈ rest.map Prod.fst <;>
        simp [mapInsert, hk, Ne.symm hk, hmem, ih]

theorem keysND_insert {κ α : Type} [DecidableEq κ] (k : κ) (v : α) (l : List (κ × α))
    (hnd : keysND l) : keysND (mapInsert k v l) := by
  rw [keysND, mapInsert_keys]
  by_cases hmem : k ∈ l.map Prod.fst
  · simpa [hmem] using hnd
  · rw [if_neg hmem]
    rw [List.nodup_append]
    exact ⟨hnd, List.nodup_singleton k, by simpa using hmem⟩

theorem mapErase_keys_sublist {κ α : Type} [DecidableEq κ] (k : κ) (l : List (κ × α)) :
    List.Sublist ((mapErase k l).map Prod.fst) (l.map Prod.fst) := by
  induction l with
  | nil => simp [mapErase]
  | cons p rest ih =>
    obtain ⟨a, b⟩ := p
    by_cases hk : a = k
    · simp only [mapErase, if_pos hk, List.map_cons]
      exact List.sublist_cons_of_sublist a (List.Sublist.refl _)
    · simp only [mapErase, if_neg hk, List.map_cons]
      exact List.Sublist.cons₂ a ih

theorem keysND_erase {κ α : Type} [DecidableEq κ] (k : κ) (l : List (κ × α))
    (hnd : keysND l) : keysND (mapErase k l) := by
  exact List.Nodup.sublist (mapErase_keys_sublist k l) hnd

theorem mapLookup_mem {κ α : Type} [DecidableEq κ] {k : κ} {v : α} {l : List (κ × α)}
    (h : mapLookup k l = some v) : (k, v) ∈ l := by
  induction l with
  | nil => simp [mapLookup] at h
  | cons p rest ih =>
    obtain ⟨a, b⟩ := p
    by_cases hk : a = k
    · subst hk
      have hbv : some b = some v := by simpa [mapLookup] using h
      injection hbv with hbv
      subst hbv
      exact List.mem_cons_self _ _
    · simp only [mapLookup, if_neg hk] at h
      exact List.mem_cons_of_mem _ (ih h)

theorem mem_mapInsert {κ α : Type} [DecidableEq κ] {k : κ} {v : α} {p : κ × α}
    {l : List (κ × α)} (h : p ∈ mapInsert k v l) : p = (k, v) ∨ p ∈ l := by
  induction l with
  | nil => simpa [mapInsert] using h
  | cons q rest ih =>
    obtain ⟨a, b⟩ := q
    by_cases hk : a = k
    · subst hk
      have hmem : p = (a, v) ∨ p ∈ rest := by simpa [mapInsert] using h
      rcases hmem with hm | hm
      · exact Or.inl hm
      · exact Or.inr (List.mem_cons_of_mem _ hm)
    · simp only [mapInsert, if_neg hk, List.mem_cons] at h
      rcases h with hm | hm
      · exact Or.inr (List.mem_cons.mpr (Or.inl hm))
      · rcases ih hm with hm2 | hm2
        · exact Or.inl hm2
        · exact Or.inr (List.mem_cons_of_mem _ hm2)

theorem mapErase_sublist {κ α : Type} [DecidableEq κ] (k : κ) (l : List (κ × α)) :
    List.Sublist (mapErase k l) l := by
  induction l with
  | nil => simp [mapErase]
  | cons p rest ih =>
    obtain ⟨a, b⟩ := p
    by_cases hk : a = k
    · simp only [mapErase, if_pos hk]
      exact List.sublist_cons_of_sublist _ (List.Sublist.refl _)
    · simp only [mapErase, if_neg hk]
      exact List.Sublist.cons₂ _ ih

theorem mem_mapErase {κ α : Type} [DecidableEq κ] {k : κ} {p : κ × α} {l : List (κ × α)}
    (h : p ∈ mapErase k l) : p ∈ l :=
  (mapErase_sublist k l).subset h

theorem ledgerTagged_insert {α γ : Type} {elems : α → List γ} {tagOf : γ → Nat}
    {l : List (Nat × α)} {k : Nat} {v : α}
    (h : ledgerTagged elems tagOf l) (hv : ∀ r ∈ elems v, tagOf r = k) :
    ledgerTagged elems tagOf (mapInsert k v l) := by
  intro p hp r hr
  rcases mem_mapInsert hp with rfl | hp
  · exact hv r hr
  · exact h p hp r hr

theorem ledgerTagged_erase {α γ : Type} {elems : α → List γ} {tagOf : γ → Nat}
    {l : List (Nat × α)} {k : Nat}
    (h : ledgerTagged elems tagOf l) : ledgerTagged elems tagOf (mapErase k l) :=
  fun p hp r hr => h p (mem_mapErase hp) r hr

theorem ledgerTagged_lookup {α γ : Type} {elems : α → List γ} {tagOf : γ → Nat}
    {l : List (Nat × α)} {k : Nat} {v : α}
    (h : ledgerTagged elems tagOf l) (hl : mapLookup k l = some v) :
    ∀ r ∈ elems v, tagOf r = k :=
  fun r hr => h (k, v) (mapLookup_mem hl) r hr

theorem mapInsert_idem {κ α : Type} [DecidableEq κ] (k : κ) (v : α) (l : List (κ × α)) :
    mapInsert k v (mapInsert k v l) = mapInsert k v l := by
  induction l with
  | nil => simp [mapInsert]
  | cons p rest ih =>
    obtain ⟨a, b⟩ := p
    by_cases hk : a = k <;> simp [mapInsert, hk, ih]

theorem ledgerTagged_getD_id {γ : Type} {tagOf : γ → Nat} {l : List (Nat × List γ)} {k : Nat}
    (h : ledgerTagged id tagOf l) : ∀ r ∈ (mapLookup k l).getD [], tagOf r = k := by
  cases hl : mapLookup k l with
  | none => simp
  | some v =>
    intro r hr
    exact ledgerTagged_lookup h hl r hr

theorem snd_mem_of_mem_enum {α : Type} {l : List α} {p : Nat × α} (h : p ∈ l.enum) :
    p.2 ∈ l := by
  rw [List.mem_enum_iff_getElem?] at h
  obtain ⟨hlt, hget⟩ := List.getElem?_eq_some.mp h
  exact hget ▸ List.getElem_mem hlt

/-- The serialised worker exits of a node with at least one worker close the
sink exactly once (the worker that observes the counter reach zero). -/
theorem worker_exit_actions_sink_count (n : Nat) :
    sink_terminate_count (worker_exit_actions n) = if n = 0 then 0 else 1 := by
  induction n with
  | zero => rfl
  | succ m ih =>
    simp only [worker_exit_actions, sink_terminate_count, List.count_append,
      List.count_cons] at *
    cases m with
    | zero => rfl
    | succ k =>
      simp only [Nat.succ_ne_zero, if_false] at *
      simpa using ih

/-- One step of the node preserves an over-full family: if tag's waiting
group expects `exp` duplex reads but strictly more are already collected,
then any single worker or reconciliation step that does not deliver a new
read for that tag leaves the group entry and the excess duplex list in
place and emits nothing for that tag. -/
theorem taggerStep_preserves_overfull (s : TaggerState) (e : TaggerEvent) (tag : Nat)
    (subs : List SimplexRead) (exp : Nat)
    (hwf : tagsConsistent s)
    (hfull : mapLookup tag s.full_subread_groups = some (subs, exp))
    (hover : exp < ((mapLookup tag s.duplex_reads).getD []).length)
    (hev : ∀ m, e = TaggerEvent.msg m → msgTag m ≠ some tag) :
    tagsConsistent (taggerStep s e).1
    ∧ mapLookup tag (taggerStep s e).1.full_subread_groups = some (subs, exp)
    ∧ exp < ((mapLookup tag (taggerStep s e).1.duplex_reads).getD []).length
    ∧ ∀ m ∈ (taggerStep s e).2, msgTag m ≠ some tag := by
  obtain ⟨sg, fg, dr, urt⟩ := s
  obtain ⟨hwf1, hwf2, hwf3⟩ := hwf
  simp only at hwf1 hwf2 hwf3 hfull hover
  cases e with
  | msg m =>
    have hmtag := hev m rfl
    cases m with
    | other =>
      exact ⟨⟨hwf1, hwf2, hwf3⟩, hfull, hover, by simp [taggerStep, worker_process]⟩
    | duplex d =>
      have hdtag : d.read_common.read_tag ≠ tag := by
        intro hh
        exact hmtag (by simp [msgTag, hh])
      have hstep : taggerStep ⟨sg, fg, dr, urt⟩ (.msg (.duplex d)) =
          (⟨sg, fg,
            mapInsert d.read_common.read_tag
              ((mapLookup d.read_common.read_tag dr).getD [] ++ [d]) dr,
            osetInsert d.read_common.read_tag urt⟩, []) := rfl
      rw [hstep]
      refine ⟨⟨hwf1, hwf2, ?_⟩, hfull, ?_, by simp⟩
      · apply ledgerTagged_insert hwf3
        intro x hx
        rcases List.mem_append.mp hx with hx | hx
        · exact ledgerTagged_getD_id hwf3 x hx
        · rcases List.mem_singleton.mp hx with rfl
          rfl
      · rw [mapLookup_insert_ne _ _ (Ne.symm hdtag)]
        exact hover
    | simplex r =>
      have hrtag : r.read_common.read_tag ≠ tag := by
        intro hh
        exact hmtag (by simp [msgTag, hh])
      by_cases hlen : ((mapLookup r.read_common.read_tag sg).getD [] ++ [r]).length
          ≠ r.read_common.split_count
      · have hstep : taggerStep ⟨sg, fg, dr, urt⟩ (.msg (.simplex r)) =
            (⟨mapInsert r.read_common.read_tag
                ((mapLookup r.read_common.read_tag sg).getD [] ++ [r]) sg, fg, dr, urt⟩, []) := by
          simp only [taggerStep, worker_process]
          rw [if_pos hlen]
        rw [hstep]
        refine ⟨⟨?_, hwf2, hwf3⟩, hfull, hover, by simp⟩
        apply ledgerTagged_insert hwf1
        intro x hx
        rcases List.mem_append.mp hx with hx | hx
        · exact ledgerTagged_getD_id hwf1 x hx
        · rcases List.mem_singleton.mp hx with rfl
          rfl
      · push_neg at hlen
        by_cases hsum : ((((mapLookup r.read_common.read_tag sg).getD [] ++ [r])).map
            (·.num_duplex_candidate_pairs)).sum = 0
        · have hstep : taggerStep ⟨sg, fg, dr, urt⟩ (.msg (.simplex r)) =
              (⟨mapErase r.read_common.read_tag sg, fg, dr, urt⟩,
                ((mapLookup r.read_common.read_tag sg).getD [] ++ [r]).map Message.simplex) := by
            simp only [taggerStep, worker_process]
            rw [if_neg (fun h => h hlen), if_pos hsum]
          rw [hstep]
          refine ⟨⟨ledgerTagged_erase hwf1, hwf2, hwf3⟩, hfull, hover, ?_⟩
          intro msg hmsg
          rcases List.mem_map.mp hmsg with ⟨x, hx, rfl⟩
          rcases List.mem_append.mp hx with hx | hx
          · have hxt := ledgerTagged_getD_id hwf1 x hx
            simp only [msgTag, hxt, ne_eq, Option.some.injEq]
            exact hrtag
          · rcases List.mem_singleton.mp hx with rfl
            simp only [msgTag, ne_eq, Option.some.injEq]
            exact hrtag
        · have hstep : taggerStep ⟨sg, fg, dr, urt⟩ (.msg (.simplex r)) =
              (⟨mapErase r.read_common.read_tag sg,
                mapInsert r.read_common.read_tag
                  ((mapLookup r.read_common.read_tag sg).getD [] ++ [r],
                    ((((mapLookup r.read_common.read_tag sg).getD [] ++ [r])).map
                      (·.num_duplex_candidate_pairs)).sum) fg,
                dr, osetInsert r.read_common.read_tag urt⟩, []) := by
            simp only [taggerStep, worker_process]
            rw [if_neg (fun h => h hlen), if_neg hsum]
          rw [hstep]
          refine ⟨⟨ledgerTagged_erase hwf1, ?_, hwf3⟩, ?_, hover, by simp⟩
          · apply ledgerTagged_insert hwf2
            intro x hx
            rcases List.mem_append.mp hx with hx | hx
            · exact ledgerTagged_getD_id hwf1 x hx
            · rcases List.mem_singleton.mp hx with rfl
              rfl
          · rw [mapLookup_insert_ne _ _ (Ne.symm hrtag)]
            exact hfull
  | check =>
    cases urt with
    | nil =>
      exact ⟨⟨hwf1, hwf2, hwf3⟩, hfull, hover, by simp [taggerStep, check_duplex_step]⟩
    | cons t rest =>
      by_cases htag : t = tag
      · subst htag
        have hne : ((mapLookup t dr).getD []).length ≠ exp := by omega
        have hstep : taggerStep ⟨sg, fg, dr, t :: rest⟩ .check =
            (⟨sg, fg, mapInsert t ((mapLookup t dr).getD []) dr, rest⟩, []) := by
          simp only [taggerStep, check_duplex_step, hfull]
          rw [if_pos hne]
        rw [hstep]
        refine ⟨⟨hwf1, hwf2, ?_⟩, hfull, ?_, by simp⟩
        · exact ledgerTagged_insert hwf3 (fun x hx => ledgerTagged_getD_id hwf3 x hx)
        · rw [mapLookup_insert_self]
          simpa using hover
      · cases hfull2 : mapLookup t fg with
        | none =>
          have hstep : taggerStep ⟨sg, fg, dr, t :: rest⟩ .check =
              (⟨sg, fg, dr, rest⟩, []) := by
            simp only [taggerStep, check_duplex_step, hfull2]
          rw [hstep]
          exact ⟨⟨hwf1, hwf2, hwf3⟩, hfull, hover, by simp⟩
        | some pr =>
          obtain ⟨subs2, exp2⟩ := pr
          by_cases hd2 : ((mapLookup t dr).getD []).length ≠ exp2
          · have hstep : taggerStep ⟨sg, fg, dr, t :: rest⟩ .check =
                (⟨sg, fg, mapInsert t ((mapLookup t dr).getD []) dr, rest⟩, []) := by
              simp only [taggerStep, check_duplex_step, hfull2]
              rw [if_pos hd2]
            rw [hstep]
            refine ⟨⟨hwf1, hwf2, ?_⟩, hfull, ?_, by simp⟩
            · exact ledgerTagged_insert hwf3 (fun x hx => ledgerTagged_getD_id hwf3 x hx)
            · rw [mapLookup_insert_ne _ _ (Ne.symm htag)]
              exact hover
          · push_neg at hd2
            have hstep : taggerStep ⟨sg, fg, dr, t :: rest⟩ .check =
                (⟨sg, mapErase t fg,
                  mapErase t (mapInsert t ((mapLookup t dr).getD []) dr), rest⟩,
                  subs2.map (fun x => Message.simplex
                    { x with read_common := { x.read_common with
                        split_count := subs2.length + ((mapLookup t dr).getD []).length } })
                  ++ ((mapLookup t dr).getD []).enum.map (fun p => Message.duplex
                    { p.2 with read_common := { p.2.read_common with
                        split_count := subs2.length + ((mapLookup t dr).getD []).length,
                        subread_id := subs2.length + p.1 } })) := by
              simp only [taggerStep, check_duplex_step, hfull2]
              rw [if_neg (fun h => h hd2)]
            rw [hstep]
            refine ⟨⟨hwf1, ledgerTagged_erase hwf2,
                ledgerTagged_erase (ledgerTagged_insert hwf3
                  (fun x hx => ledgerTagged_getD_id hwf3 x hx))⟩, ?_, ?_, ?_⟩
            · rw [mapLookup_erase_ne _ (Ne.symm htag)]
              exact hfull
            · rw [mapLookup_erase_ne _ (Ne.symm htag), mapLookup_insert_ne _ _ (Ne.symm htag)]
              exact hover
            · intro msg hmsg
              rcases List.mem_append.mp hmsg with hm | hm
              · rcases List.mem_map.mp hm with ⟨x, hx, rfl⟩
                have hxt : x.read_common.read_tag = t := ledgerTagged_lookup hwf2 hfull2 x hx
                simp only [msgTag, hxt, ne_eq, Option.some.injEq]
                exact htag
              · rcases List.mem_map.mp hm with ⟨p, hp, rfl⟩
                have hxt : p.2.read_common.read_tag = t :=
                  ledgerTagged_getD_id hwf3 p.2 (snd_mem_of_mem_enum hp)
                simp only [msgTag, hxt, ne_eq, Option.some.injEq]
                exact htag

/-- Any run of steps that delivers no further read for the tag preserves an
over-full family and never emits a message carrying that tag. -/
theorem taggerRun_preserves_overfull (tag : Nat) (subs : List SimplexRead) (exp : Nat) :
    ∀ (evs : List TaggerEvent) (s : TaggerState),
    tagsConsistent s →
    mapLookup tag s.full_subread_groups = some (subs, exp) →
    exp < ((mapLookup tag s.duplex_reads).getD []).length →
    (∀ e ∈ evs, ∀ m, e = TaggerEvent.msg m → msgTag m ≠ some tag) →
    tagsConsistent (taggerRun s evs).1
    ∧ mapLookup tag (taggerRun s evs).1.full_subread_groups = some (subs, exp)
    ∧ exp < ((mapLookup tag (taggerRun s evs).1.duplex_reads).getD []).length
    ∧ ∀ m ∈ (taggerRun s evs).2, msgTag m ≠ some tag := by
  intro evs
  induction evs with
  | nil =>
    intro s h1 h2 h3 _
    exact ⟨h1, h2, h3, by simp [taggerRun]⟩
  | cons e es ih =>
    intro s h1 h2 h3 hev
    obtain ⟨hw1, hw2, hw3, hout⟩ := taggerStep_preserves_overfull s e tag subs exp h1 h2 h3
      (fun m hm => hev e (List.mem_cons_self _ _) m hm)
    obtain ⟨hr1, hr2, hr3, hrout⟩ := ih (taggerStep s e).1 hw1 hw2 hw3
      (fun e2 he2 m hm => hev e2 (List.mem_cons_of_mem _ he2) m hm)
    have hrun : taggerRun s (e :: es) =
        ((taggerRun (taggerStep s e).1 es).1,
          (taggerStep s e).2 ++ (taggerRun (taggerStep s e).1 es).2) := rfl
    rw [hrun]
    refine ⟨hr1, hr2, hr3, ?_⟩
    intro m hm
    rcases List.mem_append.mp hm with hm | hm
    · exact hout m hm
    · exact hrout m hm

/-! ## Claim theorems -/

/-- Claim C1: for a dirty tag whose completed simplex group of size S waits
with expected duplex count E > 0, once the collected duplex count equals E
the reconciliation pass removes the tag from both ledger maps and emits
exactly S+E records: every simplex fragment first, then every duplex read,
all with `split_count` rewritten to S+E, the i-th duplex read (in collection
order) given `subread_id = S+i`, and each simplex fragment keeping its own
`subread_id` (only its `split_count` field is touched). -/
theorem subread_tagger_family_completion_emit (s : TaggerState) (tag : Nat) (rest : List Nat)
    (subs : List SimplexRead) (exp : Nat) (dups : List DuplexRead)
    (hdirty : s.updated_read_tags = tag :: rest)
    (hfull : mapLookup tag s.full_subread_groups = some (subs, exp))
    (hexp : 0 < exp)
    (hdup : mapLookup tag s.duplex_reads = some dups)
    (hlen : dups.length = exp)
    (hndf : keysND s.full_subread_groups)
    (hndd : keysND s.duplex_reads) :
    (check_duplex_step s).2 =
      subs.map (fun r => Message.simplex
        { r with read_common := { r.read_common with split_count := subs.length + exp } })
      ++ dups.enum.map (fun p => Message.duplex
        { p.2 with read_common := { p.2.read_common with
            split_count := subs.length + exp, subread_id := subs.length + p.1 } })
    ∧ (check_duplex_step s).2.length = subs.length + exp
    ∧ mapLookup tag (check_duplex_step s).1.full_subread_groups = none
    ∧ mapLookup tag (check_duplex_step s).1.duplex_reads = none := by
  have hstep : check_duplex_step s =
      ({ s with
          updated_read_tags := rest
          full_subread_groups := mapErase tag s.full_subread_groups
          duplex_reads := mapErase tag (mapInsert tag dups s.duplex_reads) },
        subs.map (fun r => Message.simplex
          { r with read_common := { r.read_common with split_count := subs.length + dups.length } })
        ++ dups.enum.map (fun p => Message.duplex
          { p.2 with read_common := { p.2.read_common with
              split_count := subs.length + dups.length, subread_id := subs.length + p.1 } })) := by
    simp only [check_duplex_step, hdirty, hfull, hdup, Option.getD_some]
    rw [if_neg (by rw [hlen]; exact fun h => h rfl)]
  refine ⟨?_, ?_, ?_, ?_⟩
  · rw [hstep, hlen]
  · rw [hstep]
    simp [hlen]
  · rw [hstep]
    exact mapLookup_erase_self tag s.full_subread_groups hndf
  · rw [hstep]
    exact mapLookup_erase_self tag (mapInsert tag dups s.duplex_reads)
      (keysND_insert tag dups s.duplex_reads hndd)

/-- Witness for C1 at the spec's duplex-augmented test vector: the
reconciliation pass emits 3 records, all with `split_count = 3`, the duplex
record with `subread_id = 2`, and clears tag 7 from both maps. -/
theorem subread_tagger_family_completion_emit_witness :
    (check_duplex_step c1State).2 =
      ([⟨⟨7, 2, 0⟩, 1⟩, ⟨⟨7, 2, 1⟩, 0⟩] : List SimplexRead).map (fun r => Message.simplex
        { r with read_common := { r.read_common with split_count := 2 + 1 } })
      ++ ([⟨⟨7, 1, 0⟩⟩] : List DuplexRead).enum.map (fun p => Message.duplex
        { p.2 with read_common := { p.2.read_common with
            split_count := 2 + 1, subread_id := 2 + p.1 } })
    ∧ (check_duplex_step c1State).2.length = 2 + 1
    ∧ mapLookup 7 (check_duplex_step c1State).1.full_subread_groups = none
    ∧ mapLookup 7 (check_duplex_step c1State).1.duplex_reads = none :=
  subread_tagger_family_completion_emit c1State 7 []
    [⟨⟨7, 2, 0⟩, 1⟩, ⟨⟨7, 2, 1⟩, 0⟩] 1 [⟨⟨7, 1, 0⟩⟩]
    (by decide) (by decide) (by decide) (by decide) (by decide) (by decide) (by decide)

/-- Counterexample to claim C2: the claim asks for an emission whenever the
trimmed span has at least 200 alignment columns, but `stereo_encode`
requires `end - start > kMinTrimmedAlignmentLength` strictly, so a pair of
identical sequences whose trimmed span has exactly 200 columns is dropped —
zero records, not one. -/
theorem stereo_pairing_min_span_boundary_cex :
    c2Template.seq = c2Complement.seq
    ∧ (⟨0, 200⟩ : AlignTrim).end_alignment_position
        - (⟨0, 200⟩ : AlignTrim).start_alignment_position = 200
    ∧ encode_and_gate c2Template c2Complement ⟨0, 200⟩ 64 = [] := by
  refine ⟨rfl, rfl, ?_⟩
  have hcons : consensus_possible ⟨0, 200⟩ = false := by decide
  simp only [encode_and_gate, stereo_encode, hcons]
  by_cases hr : length_ratio_exceeded c2Template c2Complement = true <;>
    simp [hr, emptyRead, Tensor.ndimension]

/-- Claim C2 amended: for a matched pair with identical sequences (ratio 0)
whose trimmed alignment span has MORE than 200 alignment columns (at least
201), the encoder emits exactly one merged record, with id
`template.read_id + ";" + complement.read_id` and a two-dimensional
payload. -/
theorem stereo_pairing_emit_amended (t c : StereoRead) (a : AlignTrim) (encoded_width : Nat)
    (hseq : t.seq = c.seq)
    (hspan : a.start_alignment_position < a.end_alignment_position)
    (hcols : a.end_alignment_position - a.start_alignment_position > 200) :
    encode_and_gate t c a encoded_width =
      [{ read_id := t.read_id ++ ";" ++ c.read_id
         seq := ""
         raw_data := ⟨[kNumFeatures, encoded_width]⟩ }]
    ∧ ∀ r ∈ encode_and_gate t c a encoded_width,
        r.read_id = t.read_id ++ ";" ++ c.read_id ∧ r.raw_data.ndimension = 2 := by
  have hratio : length_ratio_exceeded t c = false := by
    simp [length_ratio_exceeded, hseq]
  have hcons : consensus_possible a = true := by
    simp only [consensus_possible, kMinTrimmedAlignmentLength, Bool.and_eq_true,
      decide_eq_true_eq]
    exact ⟨hspan, hcols⟩
  have hgate : encode_and_gate t c a encoded_width =
      [{ read_id := t.read_id ++ ";" ++ c.read_id
         seq := ""
         raw_data := ⟨[kNumFeatures, encoded_width]⟩ }] := by
    simp [encode_and_gate, stereo_encode, hratio, hcons, Tensor.ndimension]
  refine ⟨hgate, ?_⟩
  intro r hr
  rw [hgate] at hr
  rcases List.mem_singleton.mp hr with rfl
  exact ⟨rfl, rfl⟩

/-- Witness for the amended C2 at a 201-column span: exactly one record,
id `"A;B"`, two-dimensional payload. -/
theorem stereo_pairing_emit_amended_witness :
    c2Template.seq = c2Complement.seq
    ∧ encode_and_gate c2Template c2Complement ⟨0, 201⟩ 64 =
        [{ read_id := c2Template.read_id ++ ";" ++ c2Complement.read_id
           seq := ""
           raw_data := ⟨[kNumFeatures, 64]⟩ }]
    ∧ ∀ r ∈ encode_and_gate c2Template c2Complement ⟨0, 201⟩ 64,
        r.read_id = c2Template.read_id ++ ";" ++ c2Complement.read_id
          ∧ r.raw_data.ndimension = 2 :=
  ⟨rfl,
   (stereo_pairing_emit_amended c2Template c2Complement ⟨0, 201⟩ 64 rfl
      (by decide) (by decide)).1,
   (stereo_pairing_emit_amended c2Template c2Complement ⟨0, 201⟩ 64 rfl
      (by decide) (by decide)).2⟩

/-- Counterexample to claim C3: over a complete run of a
`StereoDuplexEncoderNode` with one worker — the last worker's exit plus the
node's destruction — the sink's input queue is terminated twice (once at
line 367 by the exiting worker, once at line 396 by the destructor), not
exactly once as claimed. -/
theorem sink_terminate_twice_cex :
    sink_terminate_count (node_complete_run 1) = 2
    ∧ ¬ sink_terminate_count (node_complete_run 1) = 1 := by
  constructor <;> decide

/-- Claim C3 amended: when the active worker count reaches zero the node
closes its sink's input queue once, and the node's destructor closes it a
second time after joining the workers — so over a complete run including
destruction the sink's input queue is closed exactly twice (for any node
with at least one worker), not exactly once. -/
theorem sink_terminate_count_amended (num_workers : Nat) (h : 1 ≤ num_workers) :
    sink_terminate_count (node_complete_run num_workers) = 2 := by
  have hw : sink_terminate_count (worker_exit_actions num_workers) = 1 := by
    rw [worker_exit_actions_sink_count, if_neg (by omega)]
  simp only [sink_terminate_count] at hw
  simp [node_complete_run, sink_terminate_count, List.count_append, List.count_cons, hw]

/-- Witness for the amended C3 at a node with four workers. -/
theorem sink_terminate_count_amended_witness :
    1 ≤ 4 ∧ sink_terminate_count (node_complete_run 4) = 2 :=
  ⟨by decide, sink_terminate_count_amended 4 (by decide)⟩

/-- Claim C4: when the n-th simplex fragment for a tag arrives (the group
now has the fragment's `split_count` members) and the group's summed
`num_duplex_candidate_pairs` is zero, the worker emits exactly those n
fragments unchanged within that same step — the only state change is the
group's removal from `m_subread_groups`; no duplex wait is recorded. -/
theorem subread_tagger_simple_group_emit (s : TaggerState) (r : SimplexRead) (n : Nat)
    (hsplit : r.read_common.split_count = n)
    (hn : ((mapLookup r.read_common.read_tag s.subread_groups).getD [] ++ [r]).length = n)
    (hsum : ((((mapLookup r.read_common.read_tag s.subread_groups).getD [] ++ [r])).map
      (·.num_duplex_candidate_pairs)).sum = 0) :
    worker_process (.simplex r) s =
      ({ s with subread_groups := mapErase r.read_common.read_tag s.subread_groups },
        ((mapLookup r.read_common.read_tag s.subread_groups).getD [] ++ [r]).map
          Message.simplex)
    ∧ (worker_process (.simplex r) s).2.length = n := by
  have hcond : ¬ ((mapLookup r.read_common.read_tag s.subread_groups).getD [] ++ [r]).length
      ≠ r.read_common.split_count := by
    rw [hn, hsplit]
    exact fun h => h rfl
  constructor
  · simp only [worker_process]
    rw [if_neg hcond, if_pos hsum]
  · simp only [worker_process]
    rw [if_neg hcond, if_pos hsum]
    simpa using hn

/-- Witness for C4 at the spec's test vector: a tag with `split_count = 3`,
three fragments with zero duplex candidates; the third arrival emits all
three unchanged. -/
theorem subread_tagger_simple_group_emit_witness :
    worker_process (.simplex c4Read) c4State =
      ({ c4State with subread_groups := mapErase c4Read.read_common.read_tag c4State.subread_groups },
        ((mapLookup c4Read.read_common.read_tag c4State.subread_groups).getD [] ++ [c4Read]).map
          Message.simplex)
    ∧ (worker_process (.simplex c4Read) c4State).2.length = 3 :=
  subread_tagger_simple_group_emit c4State c4Read 3 (by decide) (by decide) (by decide)

set_option maxRecDepth 4000 in
/-- Counterexample to claim C5: delivering the same (template, complement)
pair twice in the order T, C, T, C emits TWO merged records for the pair —
after the first match empties the cache, the re-delivered template is cached
afresh and the re-delivered complement matches it again.  (The alignment
oracle returns a full-length 250-column trimmed span, as the external
aligner would for identical sequences.) -/
theorem pending_cache_redelivery_double_emit_cex :
    encoder_run [("T", "C")] [("C", "T")] c5ao c5wo ⟨[]⟩
        [.read c5Template, .read c5Complement, .read c5Template, .read c5Complement]
      = .ok (⟨[]⟩, [c5Merged, c5Merged])
    ∧ [c5Merged, c5Merged].length = 2
    ∧ c5Merged.read_id = c5Template.read_id ++ ";" ++ c5Complement.read_id := by
  refine ⟨rfl, rfl, rfl⟩

/-- Claim C5 amended: the PendingCache holds at most one entry per read id,
and when an incoming read's partner is found in the cache the partner entry
is removed in that same critical section, exactly once; re-delivering a
read while its partner is uncached merely overwrites its own cache entry
and emits nothing — but re-delivering the complete pair after a finished
match does produce a second merged record (see the counterexample). -/
theorem pending_cache_amended :
    (∀ (tc ct : List (String × String))
        (ao : StereoRead → StereoRead → AlignTrim) (wo : StereoRead → StereoRead → Nat)
        (r : StereoRead) (s s' : EncoderState) (out : List StereoRead),
        encoder_worker_step tc ct ao wo (.read r) s = .ok (s', out) →
        keysND s.read_cache → keysND s'.read_cache)
    ∧ (∀ (tc ct : List (String × String))
        (ao : StereoRead → StereoRead → AlignTrim) (wo : StereoRead → StereoRead → Nat)
        (r : StereoRead) (s : EncoderState) (is_t : Bool) (pid : String) (p : StereoRead),
        partner_search tc ct r.read_id = (true, is_t, pid) →
        mapLookup pid s.read_cache = some p →
        keysND s.read_cache →
        encoder_worker_step tc ct ao wo (.read r) s =
            .ok (⟨mapErase pid s.read_cache⟩,
              encode_and_gate (if is_t then r else p) (if is_t then p else r)
                (ao (if is_t then r else p) (if is_t then p else r))
                (wo (if is_t then r else p) (if is_t then p else r)))
          ∧ mapLookup pid (mapErase pid s.read_cache) = none)
    ∧ (∀ (tc ct : List (String × String))
        (ao : StereoRead → StereoRead → AlignTrim) (wo : StereoRead → StereoRead → Nat)
        (r : StereoRead) (s : EncoderState) (is_t : Bool) (pid : String),
        partner_search tc ct r.read_id = (true, is_t, pid) →
        pid ≠ r.read_id →
        mapLookup pid s.read_cache = none →
        encoder_worker_step tc ct ao wo (.read r) s =
            .ok (⟨mapInsert r.read_id r s.read_cache⟩, [])
          ∧ encoder_worker_step tc ct ao wo (.read r) ⟨mapInsert r.read_id r s.read_cache⟩ =
            .ok (⟨mapInsert r.read_id r s.read_cache⟩, [])) := by
  refine ⟨?_, ?_, ?_⟩
  · intro tc ct ao wo r s s' out hstep hnd
    rcases hps : partner_search tc ct r.read_id with ⟨pf, pit, pid⟩
    simp only [encoder_worker_step, hps] at hstep
    cases pf with
    | false =>
      simp only [Bool.false_eq_true, if_false, Except.ok.injEq, Prod.mk.injEq] at hstep
      rw [← hstep.1]
      exact hnd
    | true =>
      simp only [if_true] at hstep
      cases hc : mapLookup pid s.read_cache with
      | none =>
        rw [hc] at hstep
        simp only [Except.ok.injEq, Prod.mk.injEq] at hstep
        rw [← hstep.1]
        exact keysND_insert r.read_id r s.read_cache hnd
      | some partner =>
        rw [hc] at hstep
        simp only [Except.ok.injEq, Prod.mk.injEq] at hstep
        rw [← hstep.1]
        exact keysND_erase pid s.read_cache hnd
  · intro tc ct ao wo r s is_t pid p hps hc hnd
    refine ⟨?_, mapLookup_erase_self pid s.read_cache hnd⟩
    simp only [encoder_worker_step, hps, if_true, hc]
  · intro tc ct ao wo r s is_t pid hps hne hc
    constructor
    · simp only [encoder_worker_step, hps, if_true, hc]
    · have hc2 : mapLookup pid (mapInsert r.read_id r s.read_cache) = none := by
        rw [mapLookup_insert_ne r s.read_cache hne]
        exact hc
      simp only [encoder_worker_step, hps, if_true, hc2, mapInsert_idem]

/-- Witness for the amended C5: with the pair table T↔C, (1) caching the
template under its own id keeps keys duplicate-free, (2) the complement's
arrival removes the cached partner exactly once and encodes the pair,
(3) re-delivering the template while the complement is uncached leaves the
cache unchanged and emits nothing. -/
theorem pending_cache_amended_witness :
    keysND ((⟨[("T", c5Template)]⟩ : EncoderState).read_cache)
    ∧ (encoder_worker_step [("T", "C")] [("C", "T")] c5ao c5wo
          (.read c5Template) ⟨[("C", c5Complement)]⟩ =
        .ok (⟨mapErase "C" [("C", c5Complement)]⟩,
          encode_and_gate c5Template c5Complement (c5ao c5Template c5Complement)
            (c5wo c5Template c5Complement))
        ∧ mapLookup "C" (mapErase "C" [("C", c5Complement)]) = none)
    ∧ (encoder_worker_step [("T", "C")] [("C", "T")] c5ao c5wo
          (.read c5Template) ⟨[]⟩ = .ok (⟨mapInsert "T" c5Template []⟩, [])
      ∧ encoder_worker_step [("T", "C")] [("C", "T")] c5ao c5wo
          (.read c5Template) ⟨mapInsert "T" c5Template []⟩ =
        .ok (⟨mapInsert "T" c5Template []⟩, [])) :=
  ⟨pending_cache_amended.1 [("T", "C")] [("C", "T")] c5ao c5wo c5Template
      ⟨[]⟩ ⟨[("T", c5Template)]⟩ [] rfl (by decide),
   pending_cache_amended.2.1 [("T", "C")] [("C", "T")] c5ao c5wo c5Template
      ⟨[("C", c5Complement)]⟩ true "C" c5Complement rfl rfl (by decide),
   pending_cache_amended.2.2 [("T", "C")] [("C", "T")] c5ao c5wo c5Template
      ⟨[]⟩ true "C" rfl (by decide) rfl⟩

/-- Counterexample to claim C6: `SubreadTaggerNode` does NOT fail loudly on
a wrong-kind message — lines 13-18 log a warning and `continue`.  Feeding it
a non-read message followed by a one-fragment family, the worker recovers,
leaves the state untouched, and still processes and emits the subsequent
read. -/
theorem wrong_kind_message_tagger_recovers_cex :
    is_read_message Message.other = false
    ∧ worker_process Message.other TaggerState.init = (TaggerState.init, [])
    ∧ taggerRun TaggerState.init
        [.msg .other, .msg (.simplex ⟨⟨5, 1, 0⟩, 0⟩)] =
      (⟨[], [], [], []⟩, [.simplex ⟨⟨5, 1, 0⟩, 0⟩]) := by
  refine ⟨rfl, rfl, ?_⟩
  decide

/-- Claim C6 amended: of the two read-processing nodes, only
`StereoDuplexEncoderNode` fails loudly on a wrong-kind message (the
unchecked `std::get` throws `bad_variant_access`, which propagates);
`SubreadTaggerNode` instead recovers — it logs a warning, skips the
message without touching any state or emitting anything, and continues
processing subsequent messages. -/
theorem wrong_kind_message_amended :
    (∀ (tc ct : List (String × String))
        (ao : StereoRead → StereoRead → AlignTrim) (wo : StereoRead → StereoRead → Nat)
        (s : EncoderState),
        encoder_worker_step tc ct ao wo EncMessage.other s = .error "bad_variant_access")
    ∧ (∀ (s : TaggerState), worker_process Message.other s = (s, []))
    ∧ (∀ (s : TaggerState) (ms : List TaggerEvent),
        taggerRun s (.msg .other :: ms) = taggerRun s ms) := by
  refine ⟨fun tc ct ao wo s => rfl, fun s => rfl, fun s ms => ?_⟩
  simp [taggerRun, taggerStep, worker_process]

/-- Claim C7: a matched pair whose length-difference ratio
`|len(template.seq) - len(complement.seq)| / max(len(template.seq), len(complement.seq))`
exceeds 0.05 is dropped before any alignment work — the emitted record list
is empty whatever the alignment/trim outcome or merged width would have
been.  The ratio hypothesis is stated over the rationals; the C++ computes
it in `float`, and the comparison the code implements is embedded exactly
in `length_ratio_exceeded`. -/
theorem stereo_length_ratio_reject (t c : StereoRead)
    (h : |(t.seq.length : ℚ) - (c.seq.length : ℚ)| /
        max (t.seq.length : ℚ) (c.seq.length : ℚ) > 1 / 20) :
    ∀ (a : AlignTrim) (encoded_width : Nat), encode_and_gate t c a encoded_width = [] := by
  intro a encoded_width
  have hratio : length_ratio_exceeded t c = true := by
    rcases Nat.eq_zero_or_pos (max t.seq.length c.seq.length) with hz | hpos
    · -- both sequences empty: the ratio is 0/0 = 0 in the rationals, contradicting h
      exfalso
      rw [Nat.max_eq_zero_iff] at hz
      rw [hz.1, hz.2] at h
      norm_num at h
    · have hMq : (0 : ℚ) < max (t.seq.length : ℚ) (c.seq.length : ℚ) := by
        rw [← Nat.cast_max]
        exact_mod_cast hpos
      rw [gt_iff_lt, div_lt_div_iff₀ (by norm_num) hMq] at h
      -- h : 1 * max < |len t - len c| * 20
      have habs : |(t.seq.length : ℚ) - (c.seq.length : ℚ)| =
          max (t.seq.length : ℚ) (c.seq.length : ℚ)
            - min (t.seq.length : ℚ) (c.seq.length : ℚ) := by
        rcases le_total (t.seq.length : ℚ) (c.seq.length : ℚ) with hle | hle
        · rw [abs_sub_comm, abs_of_nonneg (sub_nonneg.mpr hle), max_eq_right hle,
            min_eq_left hle]
        · rw [abs_of_nonneg (sub_nonneg.mpr hle), max_eq_left hle, min_eq_right hle]
      rw [habs, one_mul] at h
      have hQ : ((max t.seq.length c.seq.length : ℕ) : ℚ) <
          20 * ((max t.seq.length c.seq.length - min t.seq.length c.seq.length : ℕ) : ℚ) := by
        rw [Nat.cast_sub min_le_max, Nat.cast_max, Nat.cast_min]
        linarith
      simp only [length_ratio_exceeded, decide_eq_true_eq]
      exact_mod_cast hQ
  simp [encode_and_gate, stereo_encode, hratio, emptyRead, Tensor.ndimension]

/-- Witness for C7: a 100-base template against a 50-base complement (ratio
1/2 > 0.05) yields no output for an otherwise perfectly good alignment. -/
theorem stereo_length_ratio_reject_witness :
    |((⟨"A", String.mk (List.replicate 100 'G'), ⟨[500]⟩⟩ : StereoRead).seq.length : ℚ) -
        ((⟨"B", String.mk (List.replicate 50 'G'), ⟨[250]⟩⟩ : StereoRead).seq.length : ℚ)| /
      max ((⟨"A", String.mk (List.replicate 100 'G'), ⟨[500]⟩⟩ : StereoRead).seq.length : ℚ)
        ((⟨"B", String.mk (List.replicate 50 'G'), ⟨[250]⟩⟩ : StereoRead).seq.length : ℚ) > 1 / 20
    ∧ encode_and_gate ⟨"A", String.mk (List.replicate 100 'G'), ⟨[500]⟩⟩
        ⟨"B", String.mk (List.replicate 50 'G'), ⟨[250]⟩⟩ ⟨0, 300⟩ 40 = [] :=
  ⟨by norm_num, stereo_length_ratio_reject _ _ (by norm_num) ⟨0, 300⟩ 40⟩

/-- Claim C8: a trimmed alignment span that is empty or inverted, or spans
fewer than 200 alignment columns, makes the pair a silent local rejection:
the gate emits nothing, and no error escapes — in the model the worker's
only error path is a non-Read message, so every read is processed to an
`ok` outcome. -/
theorem stereo_trimmed_span_reject (t c : StereoRead) (a : AlignTrim)
    (h : ¬(a.start_alignment_position < a.end_alignment_position)
        ∨ a.end_alignment_position - a.start_alignment_position < 200) :
    (∀ encoded_width : Nat, encode_and_gate t c a encoded_width = [])
    ∧ (∀ (tc ct : List (String × String))
        (ao : StereoRead → StereoRead → AlignTrim) (wo : StereoRead → StereoRead → Nat)
        (r : StereoRead) (s : EncoderState),
        ∃ p, encoder_worker_step tc ct ao wo (.read r) s = Except.ok p) := by
  constructor
  · intro encoded_width
    have hcons : consensus_possible a = false := by
      simp only [consensus_possible, kMinTrimmedAlignmentLength, Bool.and_eq_false_iff,
        decide_eq_false_iff_not]
      rcases h with h | h
      · left; exact h
      · right; omega
    simp only [encode_and_gate, stereo_encode, hcons]
    by_cases hr : length_ratio_exceeded t c = true <;>
      simp [hr, emptyRead, Tensor.ndimension]
  · intro tc ct ao wo r s
    rcases hps : partner_search tc ct r.read_id with ⟨pf, pit, pid⟩
    simp only [encoder_worker_step, hps]
    cases pf with
    | false => exact ⟨_, rfl⟩
    | true =>
      cases hc : mapLookup pid s.read_cache with
      | none => simp [hc]
      | some partner => simp [hc]

/-- Witness for C8 at a span of exactly 199 columns (and, for the second
conjunct, an unpaired read). -/
theorem stereo_trimmed_span_reject_witness :
    (¬((0 : Int) < (199 : Int)) ∨ (199 : Int) - (0 : Int) < 200)
    ∧ encode_and_gate ⟨"A", "ACGT", ⟨[20]⟩⟩ ⟨"B", "ACGT", ⟨[20]⟩⟩ ⟨0, 199⟩ 11 = []
    ∧ ∃ p, encoder_worker_step [] [] (fun _ _ => ⟨0, 199⟩) (fun _ _ => 11)
        (.read ⟨"A", "ACGT", ⟨[20]⟩⟩) ⟨[]⟩ = Except.ok p :=
  ⟨by decide,
   (stereo_trimmed_span_reject ⟨"A", "ACGT", ⟨[20]⟩⟩ ⟨"B", "ACGT", ⟨[20]⟩⟩ ⟨0, 199⟩
      (by decide)).1 11,
   (stereo_trimmed_span_reject ⟨"A", "ACGT", ⟨[20]⟩⟩ ⟨"B", "ACGT", ⟨[20]⟩⟩ ⟨0, 199⟩
      (by decide)).2 [] [] (fun _ _ => ⟨0, 199⟩) (fun _ _ => 11) ⟨"A", "ACGT", ⟨[20]⟩⟩ ⟨[]⟩⟩

/-- Claim C9: a completing reconciliation pass removes the tag from the
waiting-group map and from the duplex-group map in the same atomic step (the
C++ holds `m_duplex_reads_mutex` across both erases, so no interleaved
operation can see the tag in one map and not the other), and the removal
happens exactly once: any later pass over the same tag finds no waiting
group and emits nothing, so no family is emitted twice. -/
theorem family_ledger_atomic_removal (s : TaggerState) (tag : Nat) (rest : List Nat)
    (subs : List SimplexRead) (exp : Nat) (dups : List DuplexRead)
    (hdirty : s.updated_read_tags = tag :: rest)
    (hfull : mapLookup tag s.full_subread_groups = some (subs, exp))
    (hdup : mapLookup tag s.duplex_reads = some dups)
    (hlen : dups.length = exp)
    (hndf : keysND s.full_subread_groups)
    (hndd : keysND s.duplex_reads) :
    (mapLookup tag (check_duplex_step s).1.full_subread_groups = none
      ∧ mapLookup tag (check_duplex_step s).1.duplex_reads = none)
    ∧ (∀ (t : TaggerState) (rest2 : List Nat), t.updated_read_tags = tag :: rest2 →
        mapLookup tag t.full_subread_groups = none → (check_duplex_step t).2 = []) := by
  have hstep : (check_duplex_step s).1 =
      { s with
          updated_read_tags := rest
          full_subread_groups := mapErase tag s.full_subread_groups
          duplex_reads := mapErase tag (mapInsert tag dups s.duplex_reads) } := by
    simp only [check_duplex_step, hdirty, hfull, hdup, Option.getD_some]
    rw [if_neg (by rw [hlen]; exact fun h => h rfl)]
  refine ⟨⟨?_, ?_⟩, ?_⟩
  · rw [hstep]
    exact mapLookup_erase_self tag s.full_subread_groups hndf
  · rw [hstep]
    exact mapLookup_erase_self tag (mapInsert tag dups s.duplex_reads)
      (keysND_insert tag dups s.duplex_reads hndd)
  · intro t rest2 hdirty2 hfull2
    simp only [check_duplex_step, hdirty2, hfull2]

/-- Witness for C9: the completing pass on `c9State` clears tag 3 from both
maps, and a later pass over a re-dirtied tag 3 emits nothing. -/
theorem family_ledger_atomic_removal_witness :
    (mapLookup 3 (check_duplex_step c9State).1.full_subread_groups = none
      ∧ mapLookup 3 (check_duplex_step c9State).1.duplex_reads = none)
    ∧ (check_duplex_step (⟨[], [], [], [3]⟩ : TaggerState)).2 = [] :=
  ⟨(family_ledger_atomic_removal c9State 3 [] [⟨⟨3, 1, 0⟩, 1⟩] 1 [⟨⟨3, 1, 0⟩⟩]
      (by decide) (by decide) (by decide) (by decide) (by decide) (by decide)).1,
   (family_ledger_atomic_removal c9State 3 [] [⟨⟨3, 1, 0⟩, 1⟩] 1 [⟨⟨3, 1, 0⟩⟩]
      (by decide) (by decide) (by decide) (by decide) (by decide) (by decide)).2
      ⟨[], [], [], [3]⟩ [] (by decide) (by decide)⟩

/-- Claim C10: the family-completion check is an exact equality test, so
once strictly more duplex reads than expected have been recorded for a tag
with a waiting simplex group, no subsequent sequence of steps (that does not
deliver yet another read for that tag) ever emits the family — the waiting
group stays in the ledger, the excess duplex count persists, and no message
carrying that tag reaches the sink; only shutdown discards the buffered
reads. -/
theorem excess_duplex_family_stuck (s : TaggerState) (tag : Nat)
    (subs : List SimplexRead) (exp : Nat) (evs : List TaggerEvent)
    (hwf : tagsConsistent s)
    (hfull : mapLookup tag s.full_subread_groups = some (subs, exp))
    (hover : exp < ((mapLookup tag s.duplex_reads).getD []).length)
    (hev : ∀ e ∈ evs, ∀ m, e = TaggerEvent.msg m → msgTag m ≠ some tag) :
    mapLookup tag (taggerRun s evs).1.full_subread_groups = some (subs, exp)
    ∧ exp < ((mapLookup tag (taggerRun s evs).1.duplex_reads).getD []).length
    ∧ ∀ m ∈ (taggerRun s evs).2, msgTag m ≠ some tag := by
  obtain ⟨_, h2, h3, h4⟩ := taggerRun_preserves_overfull tag subs exp evs s hwf hfull hover hev
  exact ⟨h2, h3, h4⟩

/-- Witness for C10: after a reconciliation pass and an unrelated read, tag
7's waiting group is still ledgered, the excess duplex count persists, and
nothing tagged 7 was emitted. -/
theorem excess_duplex_family_stuck_witness :
    mapLookup 7 (taggerRun c10State c10Events).1.full_subread_groups =
      some ([⟨⟨7, 2, 0⟩, 1⟩], 1)
    ∧ 1 < ((mapLookup 7 (taggerRun c10State c10Events).1.duplex_reads).getD []).length
    ∧ ∀ m ∈ (taggerRun c10State c10Events).2, msgTag m ≠ some 7 :=
  excess_duplex_family_stuck c10State 7 [⟨⟨7, 2, 0⟩, 1⟩] 1 c10Events
    (by decide) (by decide) (by decide)
    (by
      intro e he m hm
      rcases List.mem_cons.mp he with rfl | he
      · exact TaggerEvent.noConfusion hm
      · rcases List.mem_cons.mp he with rfl | he
        · injection hm with hmm
          subst hmm
          decide
        · exact absurd he (List.not_mem_nil e))

end Dorado

